import Mathlib

/-!
Shallow embedding of the log-structured key-value store in src/kvls.rs and
src/kvs.rs (crate kvs, files kvls.rs / kvs.rs / lib.rs).

Modelling conventions:
* A log file on disk is represented by the list of records it contains, in
  file order.  Every write in the source goes through `commit_operation`,
  which appends the serde_json serialization of one record, so the file is
  always a concatenation of record encodings; byte offsets are recovered from
  the faithful encoding model below (`encodeEntry` / `encLen`).
* The Rust `HashMap<String, u64>` is modelled as an association list with
  unique keys; `insert` replaces in place, `remove` deletes, and iteration
  order is the list order (the Rust iteration order is unspecified; the list
  fixes one order, which is all the proofs depend on).
* Fallible code returns `KvResult`.  A Rust `panic!` is modelled by the
  distinct outcome `KvResult.panicked`, which is not an `Err` returned to the
  caller.  Methods taking `&mut self` return their updated state even on the
  error path, because partial mutations persist in the source.
* Machine integers: offsets are `u64` byte positions in real files and never
  overflow nor underflow (`end - v.len()` has `end ≥ v.len()` because the
  record was just appended), so they are modelled by `Nat`.
-/

/-- Record of the log, as serialized by serde: struct with fields `key` and
`value : Option`.  `value = some v` is a Set record, `value = none` is a
Remove tombstone (source structs SeLogEntry / DeLogEntry in kvls.rs). -/
structure LogEntry where
  key : String
  value : Option String
deriving DecidableEq, Repr

/-- Lowercase hex digit, as emitted by serde_json for control characters. -/
def hexDigit (n : Nat) : Char :=
  if n < 10 then Char.ofNat (48 + n) else Char.ofNat (87 + n)

/-- JSON string escaping of one character, exactly as serde_json writes it:
quote and backslash are escaped, control characters below 0x20 use the short
escapes or a \u00XX escape, and every other character is written as itself
(in UTF-8). -/
def escapeChar (c : Char) : List Char :=
  if c = '"' then [ '\\', '"']
  else if c = '\\' then [ '\\', '\\']
  else if c.toNat < 32 then
    if c.toNat = 8 then [ '\\', 'b']
    else if c.toNat = 9 then [ '\\', 't']
    else if c.toNat = 10 then [ '\\', 'n']
    else if c.toNat = 12 then [ '\\', 'f']
    else if c.toNat = 13 then [ '\\', 'r']
    else [ '\\', 'u', '0', '0', hexDigit (c.toNat / 16), hexDigit (c.toNat % 16)]
  else [c]

/-- JSON string literal for `s`, as a character sequence. -/
def jsonStringChars (s : String) : List Char :=
  [ '"'] ++ (s.data.map escapeChar).flatten ++ [ '"']

/-- Characters of the serde_json serialization of one record:
`\x7b"key":<k>,"value":<v or null>\x7d` with no separator and no newline. -/
def encodeEntry (e : LogEntry) : List Char :=
  ("\x7b\"key\":").data ++ jsonStringChars e.key ++ (",\"value\":").data ++
    (match e.value with
     | some v => jsonStringChars v
     | none => ("null").data) ++ ("\x7d").data

/-- Number of UTF-8 bytes of a character sequence. -/
def utf8Bytes : List Char → Nat
  | [] => 0
  | c :: cs => c.utf8Size + utf8Bytes cs

/-- Byte length of the encoding of one record. -/
def encLen (e : LogEntry) : Nat := utf8Bytes (encodeEntry e)

/-- Byte length of a log file holding the given records back-to-back. -/
def logLen : List LogEntry → Nat
  | [] => 0
  | e :: rest => encLen e + logLen rest

/-- Record starting exactly at byte `pos` of the log, if any.  A position
inside a record (or at or past end of file) starts no record: a serde_json
decoder started there cannot yield a further DeLogEntry, because quotes and
backslashes inside keys and values are escaped in the file. -/
def findAt : List LogEntry → Nat → Option LogEntry
  | [], _ => none
  | e :: rest, pos =>
    if pos = 0 then some e
    else if pos < encLen e then none
    else findAt rest (pos - encLen e)

/-- Lookup in the association-list model of HashMap. -/
def mapLookup {β : Type} : List (String × β) → String → Option β
  | [], _ => none
  | (k, v) :: rest, key => if k = key then some v else mapLookup rest key

/-- HashMap insert: replaces the value of an existing key in place, appends a
fresh key at the end. -/
def mapInsert {β : Type} : List (String × β) → String → β → List (String × β)
  | [], key, val => [(key, val)]
  | (k, v) :: rest, key, val =>
    if k = key then (key, val) :: rest else (k, v) :: mapInsert rest key val

/-- HashMap remove: drops the entries of the key (the lists that arise hold
each key at most once, so this agrees with removing one entry). -/
def mapErase {β : Type} : List (String × β) → String → List (String × β)
  | [], _ => []
  | (k, v) :: rest, key =>
    if k = key then mapErase rest key else (k, v) :: mapErase rest key

/-- State of KvLogStore (kvls.rs): the decoded contents of the active log
file kvls.ser, the decoded contents of the compaction temp file
kvls.compact.ser (empty list when the file is absent or empty), and the two
record counters.  The file handles and the directory path carry no further
state that the claims depend on; the BufWriter is flushed by the seek in
every `commit_operation`, so reads always observe all previous writes. -/
structure KvLogStore where
  log : List LogEntry
  compactFile : List LogEntry
  num_entries : Nat
  max_entries : Nat
deriving DecidableEq, Repr

/-- Constructor KvLogStore::new on a directory whose log file holds the given
records (the file is created empty when absent): counters start at 0 and
1024. -/
def KvLogStore.new (logFile compactFile : List LogEntry) : KvLogStore :=
  { log := logFile, compactFile := compactFile, num_entries := 0, max_entries := 1024 }

/-- Error values surfaced by the engine (err_msg strings in the source). -/
inductive KvError where
  | keyNotFound
  | keyMismatch
  | mapOutOfSync
  | malformed
deriving DecidableEq, Repr

/-- Outcome of a fallible call: an Ok value, an Err returned to the caller,
or a panic (which aborts and is never an Err). -/
inductive KvResult (α : Type) where
  | ok (val : α)
  | err (e : KvError)
  | panicked
deriving DecidableEq, Repr

/-- Model of KvLogStore::commit_operation on a file: serialize the record,
append its bytes, seek to the end (which flushes the BufWriter), and return
`end - v.len()`, the byte at which the record begins. -/
def commit_operation (e : LogEntry) (file : List LogEntry) : Nat × List LogEntry :=
  let v := encodeEntry e
  let written := file ++ [e]
  let endPos := logLen written
  (endPos - utf8Bytes v, written)

/-- KvLogStore::set: commit a Set record to the active log, bump the record
counter, return the offset. -/
def KvLogStore.set (st : KvLogStore) (key value : String) : Nat × KvLogStore :=
  let p := commit_operation { key := key, value := some value } st.log
  (p.1, { st with log := p.2, num_entries := st.num_entries + 1 })

/-- KvLogStore::remove: commit a Remove record to the active log and bump the
record counter. -/
def KvLogStore.remove (st : KvLogStore) (key : String) : KvLogStore :=
  let p := commit_operation { key := key, value := none } st.log
  { st with log := p.2, num_entries := st.num_entries + 1 }

/-- Replay loop of KvLogStore::build_map: for each record, a Set inserts the
offset of its first byte, a Remove erases the key; returns the rebuilt map
and the number of records replayed. -/
def buildMapGo : List LogEntry → Nat → List (String × Nat) → Nat →
    List (String × Nat) × Nat
  | [], _, map, count => (map, count)
  | e :: rest, pos, map, count =>
    let map :=
      match e.value with
      | some _ => mapInsert map e.key pos
      | none => mapErase map e.key
    buildMapGo rest (pos + encLen e) map (count + 1)

/-- KvLogStore::build_map: replay the whole log from byte 0 and add the
record count to num_entries. -/
def KvLogStore.build_map (st : KvLogStore) : List (String × Nat) × KvLogStore :=
  let p := buildMapGo st.log 0 [] 0
  (p.1, { st with num_entries := st.num_entries + p.2 })

/-- KvLogStore::get_at_offset: seek a cloned read handle to `pos` and decode
one record.  At or past end of file the record stream is empty and the
source panics; a position inside a record makes the decoder fail, which the
source returns as an error; a decoded record returns its value when it is a
Set whose key matches, and an error otherwise (the key comparison comes
first in the source). -/
def KvLogStore.get_at_offset (st : KvLogStore) (key : String) (pos : Nat) :
    KvResult String :=
  if logLen st.log ≤ pos then KvResult.panicked
  else
    match findAt st.log pos with
    | none => KvResult.err KvError.malformed
    | some op =>
      if op.key = key then
        match op.value with
        | some v => KvResult.ok v
        | none => KvResult.err KvError.mapOutOfSync
      else KvResult.err KvError.keyMismatch

/-- Doubling loop of compaction_analysis: `while num_entries > max_entries
\x7b max_entries *= 2 \x7d`.  The `0 < m` guard makes the recursion well
founded; the source loop can only run with `max_entries ≥ 1024`, where the
guard is vacuous. -/
def doubleWhile (n m : Nat) : Nat :=
  if h : 0 < m ∧ m < n then doubleWhile n (2 * m) else m
termination_by n - m
decreasing_by omega

/-- KvLogStore::compaction_analysis: below the threshold do nothing; at or
above it, when fewer than twice the live keys have been logged, double the
threshold until it reaches num_entries and skip; otherwise compact. -/
def compaction_analysis (st : KvLogStore) (map_len : Nat) : Bool × KvLogStore :=
  if st.num_entries < st.max_entries then (false, st)
  else if st.num_entries < 2 * map_len then
    (false, { st with max_entries := doubleWhile st.num_entries st.max_entries })
  else (true, st)

/-- Loop of KvLogStore::do_compaction over `map.iter_mut()`: read each live
value at its old offset in the old log, commit a Set record to the temp
file, and overwrite the offset in place.  On an error the entries already
processed keep their new offsets and the records already committed stay in
the temp file, exactly as the `?` early return leaves them. -/
def compactLoop (st : KvLogStore) :
    List (String × Nat) → List LogEntry →
    KvResult Unit × List (String × Nat) × List LogEntry
  | [], temp => (KvResult.ok (), [], temp)
  | (key, pos) :: rest, temp =>
    match st.get_at_offset key pos with
    | KvResult.ok value =>
      let p := commit_operation { key := key, value := some value } temp
      let r := compactLoop st rest p.2
      (r.1, (key, p.1) :: r.2.1, r.2.2)
    | KvResult.err e => (KvResult.err e, (key, pos) :: rest, temp)
    | KvResult.panicked => (KvResult.panicked, (key, pos) :: rest, temp)

/-- KvLogStore::do_compaction.  After the analysis gate, open_file_handles
opens kvls.compact.ser with create+append and does NOT truncate it, so the
loop appends after any pre-existing bytes.  On success the temp file is
renamed over the active log (so the active log becomes the whole temp
contents and the temp file is gone), handles are reopened, and num_entries
is reset to the map size; max_entries is not touched.  On an error the
active log is untouched but the partially written temp file and the
partially rewritten map persist. -/
def KvLogStore.do_compaction (st : KvLogStore) (map : List (String × Nat)) :
    KvResult Bool × List (String × Nat) × KvLogStore :=
  let a := compaction_analysis st map.length
  if a.1 = false then (KvResult.ok false, map, a.2)
  else
    let st1 := a.2
    let r := compactLoop st1 map st1.compactFile
    match r.1 with
    | KvResult.ok _ =>
      (KvResult.ok true, r.2.1,
        { st1 with log := r.2.2, compactFile := [], num_entries := r.2.1.length })
    | KvResult.err e => (KvResult.err e, r.2.1, { st1 with compactFile := r.2.2 })
    | KvResult.panicked => (KvResult.panicked, r.2.1, { st1 with compactFile := r.2.2 })

/-- State of KvStore (kvs.rs): the in-memory index and the log store. -/
structure KvStore where
  kvmap : List (String × Nat)
  kvlog : KvLogStore
deriving DecidableEq, Repr

/-- KvStore::open on a directory whose log file and compaction temp file
hold the given records: KvLogStore::new then build_map.  (The source name is
`open`, a Lean keyword.) -/
def KvStore.openDir (logFile compactFile : List LogEntry) : KvStore :=
  let st := KvLogStore.new logFile compactFile
  let p := st.build_map
  { kvmap := p.1, kvlog := p.2 }

/-- KvStore::set: run the compaction gate first, then append the Set record,
then point the index at the returned offset.  A failed compaction returns
the error with its partial mutations kept. -/
def KvStore.set (s : KvStore) (key value : String) : KvResult Unit × KvStore :=
  let c := s.kvlog.do_compaction s.kvmap
  match c.1 with
  | KvResult.ok _ =>
    let p := c.2.2.set key value
    (KvResult.ok (), { kvmap := mapInsert c.2.1 key p.1, kvlog := p.2 })
  | KvResult.err e => (KvResult.err e, { kvmap := c.2.1, kvlog := c.2.2 })
  | KvResult.panicked => (KvResult.panicked, { kvmap := c.2.1, kvlog := c.2.2 })

/-- KvStore::get: look the key up in the index; on a hit read the value at
the stored offset, on a miss return None. -/
def KvStore.get (s : KvStore) (key : String) : KvResult (Option String) :=
  match mapLookup s.kvmap key with
  | some pos =>
    match s.kvlog.get_at_offset key pos with
    | KvResult.ok v => KvResult.ok (some v)
    | KvResult.err e => KvResult.err e
    | KvResult.panicked => KvResult.panicked
  | none => KvResult.ok none

/-- KvStore::remove: run the compaction gate first; a key then absent from
the index returns the KeyNotFound error, a present key commits a Remove
record and erases the index entry. -/
def KvStore.remove (s : KvStore) (key : String) : KvResult Unit × KvStore :=
  let c := s.kvlog.do_compaction s.kvmap
  match c.1 with
  | KvResult.ok _ =>
    if (mapLookup c.2.1 key).isSome then
      let st := c.2.2.remove key
      (KvResult.ok (), { kvmap := mapErase c.2.1 key, kvlog := st })
    else (KvResult.err KvError.keyNotFound, { kvmap := c.2.1, kvlog := c.2.2 })
  | KvResult.err e => (KvResult.err e, { kvmap := c.2.1, kvlog := c.2.2 })
  | KvResult.panicked => (KvResult.panicked, { kvmap := c.2.1, kvlog := c.2.2 })

/-- Modelled from the spec (claim C9 comparison): the order of effects the
spec prescribes for `set` — append the Set record, point the index at the
returned offset, and only then evaluate the compaction policy. -/
def KvStore.setSpecOrdered (s : KvStore) (key value : String) :
    KvResult Unit × KvStore :=
  let p := s.kvlog.set key value
  let m := mapInsert s.kvmap key p.1
  let c := p.2.do_compaction m
  match c.1 with
  | KvResult.ok _ => (KvResult.ok (), { kvmap := c.2.1, kvlog := c.2.2 })
  | KvResult.err e => (KvResult.err e, { kvmap := c.2.1, kvlog := c.2.2 })
  | KvResult.panicked => (KvResult.panicked, { kvmap := c.2.1, kvlog := c.2.2 })

/-- Engine operation of a client sequence. -/
inductive Op where
  | set (key value : String)
  | rm (key : String)
deriving DecidableEq, Repr

/-- Apply one operation to the store, keeping the state a fallible call
leaves behind (a KeyNotFound from rm is surfaced to the caller but the store
stays usable, as in the source). -/
def applyOp (s : KvStore) (op : Op) : KvStore :=
  match op with
  | Op.set k v => (s.set k v).2
  | Op.rm k => (s.remove k).2

/-- Run a sequence of operations against a freshly opened store (empty
directory). -/
def runOps (ops : List Op) : KvStore :=
  ops.foldl applyOp (KvStore.openDir [] [])

/-- Reference in-memory map semantics of one operation. -/
def refStep (m : List (String × String)) : Op → List (String × String)
  | Op.set k v => mapInsert m k v
  | Op.rm k => mapErase m k

/-- Reference in-memory map after a sequence of operations. -/
def runRef (ops : List Op) : List (String × String) :=
  ops.foldl refStep []

/-- Index rebuilt by replaying a log from byte 0 (verification view of
build_map). -/
def replay (log : List LogEntry) : List (String × Nat) :=
  (buildMapGo log 0 [] 0).1

/-- Functional description of a successful compaction loop started at byte
`base` of the temp file: the rewritten index entries and the records
appended, or none when some read fails (verification view of compactLoop). -/
def compactOut (st : KvLogStore) : List (String × Nat) → Nat →
    Option (List (String × Nat) × List LogEntry)
  | [], _ => some ([], [])
  | (key, pos) :: rest, base =>
    match st.get_at_offset key pos with
    | KvResult.ok value =>
      let e : LogEntry := { key := key, value := some value }
      match compactOut st rest (base + encLen e) with
      | some pr => some ((key, base) :: pr.1, e :: pr.2)
      | none => none
    | _ => none

/-- Relation between the index, the log and the reference map: a key is in
the index exactly when it is in the reference map, and a present key points
at a Set record of the log holding the reference value. -/
def View (m : List (String × Nat)) (log : List LogEntry)
    (r : List (String × String)) : Prop :=
  ∀ k,
    (mapLookup m k = none ↔ mapLookup r k = none) ∧
    (∀ off v, mapLookup m k = some off → mapLookup r k = some v →
      findAt log off = some { key := k, value := some v })

/-- Invariant of every store state reachable from a fresh directory, tied to
the reference map of the operations run so far: the index is exactly the
replay of the active log, the compaction temp file is absent, and the index
agrees with the reference map through the log. -/
def GInv (s : KvStore) (r : List (String × String)) : Prop :=
  s.kvmap = replay s.kvlog.log ∧ s.kvlog.compactFile = [] ∧
    View s.kvmap s.kvlog.log r

/-- Concrete one-record log used by several explicit evaluations. -/
def exLog1 : List LogEntry := [{ key := "a", value := some ("x") }]

/-- Concrete state at the compaction threshold with one live key. -/
def exSt3 : KvLogStore :=
  { log := exLog1, compactFile := [], num_entries := 1024, max_entries := 1024 }

/-- Index of exSt3. -/
def exMap3 : List (String × Nat) := [("a", 0)]

/-- State exSt3 after its compaction. -/
def exSt3post : KvLogStore :=
  { log := exLog1, compactFile := [], num_entries := 1, max_entries := 1024 }

/-- Concrete state whose index second entry points at a mismatched record:
offset 23 starts the record Set a y, but the index claims key b there. -/
def exSt5 : KvLogStore :=
  { log := [{ key := "b", value := some ("x") }, { key := "a", value := some ("y") }]
    compactFile := []
    num_entries := 1024
    max_entries := 1024 }

/-- Index driving exSt5 into a failing compaction: the entry for b points at
the record of a. -/
def exMap5 : List (String × Nat) := [("a", 23), ("b", 23)]

/-- Concrete store at the compaction threshold with three records and two
live keys (offsets 23 and 46 are the record starts of the second and third
record). -/
def exS6 : KvStore :=
  { kvmap := [("a", 23), ("b", 46)]
    kvlog := { log := [{ key := "a", value := some ("x") },
                       { key := "a", value := some ("y") },
                       { key := "b", value := some ("z") }]
               compactFile := []
               num_entries := 1024
               max_entries := 1024 } }

/-- Concrete one-record log store; byte 23 is its end of file. -/
def exSt7 : KvLogStore :=
  { log := exLog1, compactFile := [], num_entries := 1, max_entries := 1024 }

/-- Concrete store one record below the compaction threshold. -/
def exS9 : KvStore :=
  { kvmap := [("a", 0)]
    kvlog := { log := exLog1
               compactFile := []
               num_entries := 1023
               max_entries := 1024 } }

/-- Concrete state at the compaction threshold whose compaction temp file
already holds a stale record. -/
def exSt10 : KvLogStore :=
  { log := exLog1
    compactFile := [{ key := "z", value := some ("q") }]
    num_entries := 1024
    max_entries := 1024 }

/-- State exSt5 after its failing compaction: log untouched, temp file holds
the one record committed before the failure. -/
def exSt5post : KvLogStore :=
  { log := [{ key := "b", value := some ("x") }, { key := "a", value := some ("y") }]
    compactFile := [{ key := "a", value := some ("y") }]
    num_entries := 1024
    max_entries := 1024 }

/-- Index exMap5 after the failing compaction: the processed entry for a was
redirected to offset 0 of the temp file. -/
def exMap5post : List (String × Nat) := [("a", 0), ("b", 23)]

/-- State exSt10 after its compaction: the stale record stays at the head of
the renamed file. -/
def exSt10post : KvLogStore :=
  { log := [{ key := "z", value := some ("q") }, { key := "a", value := some ("x") }]
    compactFile := []
    num_entries := 1
    max_entries := 1024 }

/-- Index after the exSt10 compaction: the entry for a lands after the 23
stale bytes. -/
def exMap10post : List (String × Nat) := [("a", 23)]

/-! Basic facts about the encoding and the offset arithmetic. -/

theorem utf8Bytes_append (l1 l2 : List Char) :
    utf8Bytes (l1 ++ l2) = utf8Bytes l1 + utf8Bytes l2 := by
  induction l1 with
  | nil => simp [utf8Bytes]
  | cons c cs ih => simp [utf8Bytes, ih]; omega

theorem encLen_pos (e : LogEntry) : 0 < encLen e := by
  unfold encLen encodeEntry
  rw [utf8Bytes_append, utf8Bytes_append, utf8Bytes_append, utf8Bytes_append]
  have h : utf8Bytes (("\x7b\"key\":").data) = 7 := by decide
  omega

theorem logLen_append (l1 l2 : List LogEntry) :
    logLen (l1 ++ l2) = logLen l1 + logLen l2 := by
  induction l1 with
  | nil => simp [logLen]
  | cons e rest ih => simp [logLen, ih]; omega

theorem commit_operation_eq (e : LogEntry) (file : List LogEntry) :
    commit_operation e file = (logLen file, file ++ [e]) := by
  simp [commit_operation, logLen_append, logLen, encLen]

theorem findAt_lt {l : List LogEntry} {pos : Nat} {e : LogEntry}
    (h : findAt l pos = some e) : pos < logLen l := by
  induction l generalizing pos with
  | nil => simp [findAt] at h
  | cons a rest ih =>
    unfold findAt at h
    by_cases h0 : pos = 0
    · have := encLen_pos a
      simp [logLen]; omega
    · rw [if_neg h0] at h
      by_cases h1 : pos < encLen a
      · simp [h1] at h
      · rw [if_neg h1] at h
        have := ih h
        simp [logLen]; omega

theorem findAt_append_left {l : List LogEntry} (l' : List LogEntry) {pos : Nat}
    (h : pos < logLen l) : findAt (l ++ l') pos = findAt l pos := by
  induction l generalizing pos with
  | nil => simp [logLen] at h
  | cons a rest ih =>
    rw [List.cons_append]
    simp only [findAt]
    by_cases h0 : pos = 0
    · simp [h0]
    · rw [if_neg h0, if_neg h0]
      by_cases h1 : pos < encLen a
      · simp [h1]
      · rw [if_neg h1, if_neg h1]
        apply ih
        simp [logLen] at h
        omega

theorem findAt_append_right (l l' : List LogEntry) (pos : Nat) :
    findAt (l ++ l') (logLen l + pos) = findAt l' pos := by
  induction l with
  | nil => simp [logLen]
  | cons a rest ih =>
    have ha := encLen_pos a
    rw [List.cons_append]
    show findAt (a :: (rest ++ l')) (logLen (a :: rest) + pos) = findAt l' pos
    simp only [findAt, logLen]
    have h0 : ¬(encLen a + logLen rest + pos = 0) := by omega
    have h1 : ¬(encLen a + logLen rest + pos < encLen a) := by omega
    rw [if_neg h0, if_neg h1]
    have h2 : encLen a + logLen rest + pos - encLen a = logLen rest + pos := by omega
    rw [h2, ih]

theorem findAt_append_last (l : List LogEntry) (e : LogEntry) :
    findAt (l ++ [e]) (logLen l) = some e := by
  have h := findAt_append_right l [e] 0
  simpa [findAt] using h

/-! Facts about the association-list model of HashMap. -/

theorem lookup_insert {β : Type} (m : List (String × β)) (k : String) (v : β) :
    mapLookup (mapInsert m k v) k = some v := by
  induction m with
  | nil => simp [mapInsert, mapLookup]
  | cons p rest ih =>
    obtain ⟨a, b⟩ := p
    unfold mapInsert
    by_cases h : a = k
    · simp [h, mapLookup]
    · rw [if_neg h]
      simp [mapLookup, h, ih]

theorem lookup_insert_ne {β : Type} (m : List (String × β)) {k k' : String} (v : β)
    (h : k' ≠ k) : mapLookup (mapInsert m k v) k' = mapLookup m k' := by
  induction m with
  | nil =>
    have hkk : ¬(k = k') := fun hh => h hh.symm
    simp [mapInsert, mapLookup, hkk]
  | cons p rest ih =>
    obtain ⟨a, b⟩ := p
    unfold mapInsert
    by_cases ha : a = k
    · subst ha
      have hkk : ¬(a = k') := fun hh => h hh.symm
      simp [mapLookup, hkk]
    · rw [if_neg ha]
      unfold mapLookup
      by_cases hb : a = k'
      · simp [hb]
      · simp [hb, ih]

theorem lookup_erase {β : Type} (m : List (String × β)) (k : String) :
    mapLookup (mapErase m k) k = none := by
  induction m with
  | nil => simp [mapErase, mapLookup]
  | cons p rest ih =>
    obtain ⟨a, b⟩ := p
    unfold mapErase
    by_cases h : a = k
    · simp [h, ih]
    · simp [h, mapLookup, ih]

theorem lookup_erase_ne {β : Type} (m : List (String × β)) {k k' : String}
    (h : k' ≠ k) : mapLookup (mapErase m k) k' = mapLookup m k' := by
  induction m with
  | nil => simp [mapErase]
  | cons p rest ih =>
    obtain ⟨a, b⟩ := p
    unfold mapErase
    by_cases ha : a = k
    · subst ha
      have : ¬(a = k') := fun hh => h hh.symm
      simp [mapLookup, this, ih]
    · simp [ha, mapLookup, ih]

theorem erase_of_lookup_none {β : Type} (m : List (String × β)) (k : String)
    (h : mapLookup m k = none) : mapErase m k = m := by
  induction m with
  | nil => simp [mapErase]
  | cons p rest ih =>
    obtain ⟨a, b⟩ := p
    unfold mapLookup at h
    by_cases ha : a = k
    · simp [ha] at h
    · rw [if_neg ha] at h
      simp [mapErase, ha, ih h]

theorem insert_of_lookup_none {β : Type} (m : List (String × β)) (k : String) (v : β)
    (h : mapLookup m k = none) : mapInsert m k v = m ++ [(k, v)] := by
  induction m with
  | nil => simp [mapInsert]
  | cons p rest ih =>
    obtain ⟨a, b⟩ := p
    unfold mapLookup at h
    by_cases ha : a = k
    · simp [ha] at h
    · rw [if_neg ha] at h
      simp [mapInsert, ha, ih h]

theorem lookup_append_none {β : Type} (m1 m2 : List (String × β)) (k : String)
    (h : mapLookup m1 k = none) : mapLookup (m1 ++ m2) k = mapLookup m2 k := by
  induction m1 with
  | nil => simp
  | cons p rest ih =>
    obtain ⟨a, b⟩ := p
    unfold mapLookup at h
    by_cases ha : a = k
    · simp [ha] at h
    · rw [if_neg ha] at h
      rw [List.cons_append]
      show mapLookup ((a, b) :: (rest ++ m2)) k = mapLookup m2 k
      simp only [mapLookup]
      rw [if_neg ha]
      exact ih h

theorem lookup_none_iff {β : Type} (m : List (String × β)) (k : String) :
    mapLookup m k = none ↔ k ∉ m.map Prod.fst := by
  induction m with
  | nil => simp [mapLookup]
  | cons p rest ih =>
    obtain ⟨a, b⟩ := p
    unfold mapLookup
    by_cases ha : a = k
    · simp [ha]
    · have hak : ¬(k = a) := fun hh => ha hh.symm
      simp [ha, ih, hak]

theorem lookup_of_mem_nodup {β : Type} (m : List (String × β))
    (h : (m.map Prod.fst).Nodup) (p : String × β) (hp : p ∈ m) :
    mapLookup m p.1 = some p.2 := by
  induction m with
  | nil => simp at hp
  | cons q rest ih =>
    obtain ⟨a, b⟩ := q
    rw [List.map_cons, List.nodup_cons] at h
    rcases List.mem_cons.mp hp with h1 | h1
    · subst h1
      simp [mapLookup]
    · have hne : ¬(a = p.1) := by
        intro hh
        apply h.1
        rw [hh]
        exact List.mem_map.mpr ⟨p, h1, rfl⟩
      simp only [mapLookup]
      rw [if_neg hne]
      exact ih h.2 h1

theorem mem_keys_insert {β : Type} (m : List (String × β)) (k : String) (v : β)
    (x : String) (hx : x ∈ (mapInsert m k v).map Prod.fst) :
    x ∈ m.map Prod.fst ∨ x = k := by
  induction m with
  | nil =>
    simp [mapInsert] at hx
    exact Or.inr hx
  | cons p rest ih =>
    obtain ⟨a, b⟩ := p
    unfold mapInsert at hx
    by_cases ha : a = k
    · rw [if_pos ha] at hx
      rw [List.map_cons, List.mem_cons] at hx
      rcases hx with h1 | h1
      · exact Or.inr h1
      · left
        rw [List.map_cons, List.mem_cons]
        exact Or.inr h1
    · rw [if_neg ha] at hx
      rw [List.map_cons, List.mem_cons] at hx
      rcases hx with h1 | h1
      · left
        rw [List.map_cons, List.mem_cons]
        exact Or.inl h1
      · rcases ih h1 with h2 | h2
        · left
          rw [List.map_cons, List.mem_cons]
          exact Or.inr h2
        · exact Or.inr h2

theorem nodup_insert_keys {β : Type} (m : List (String × β)) (k : String) (v : β)
    (h : (m.map Prod.fst).Nodup) : ((mapInsert m k v).map Prod.fst).Nodup := by
  induction m with
  | nil => simp [mapInsert]
  | cons p rest ih =>
    obtain ⟨a, b⟩ := p
    rw [List.map_cons, List.nodup_cons] at h
    unfold mapInsert
    by_cases ha : a = k
    · rw [if_pos ha]
      rw [List.map_cons, List.nodup_cons]
      exact ⟨by rw [← ha]; exact h.1, h.2⟩
    · rw [if_neg ha]
      rw [List.map_cons, List.nodup_cons]
      constructor
      · intro hmem
        rcases mem_keys_insert rest k v a hmem with h1 | h1
        · exact h.1 h1
        · exact ha h1
      · exact ih h.2

theorem keys_erase {β : Type} (m : List (String × β)) (k : String) :
    (mapErase m k).map Prod.fst = (m.map Prod.fst).filter (fun x => ¬(x = k)) := by
  induction m with
  | nil => simp [mapErase]
  | cons p rest ih =>
    obtain ⟨a, b⟩ := p
    unfold mapErase
    by_cases ha : a = k
    · simp [ha, ih]
    · simp [ha, ih]

theorem nodup_erase_keys {β : Type} (m : List (String × β)) (k : String)
    (h : (m.map Prod.fst).Nodup) : ((mapErase m k).map Prod.fst).Nodup := by
  rw [keys_erase]
  exact h.filter _

/-! Facts about build_map replay. -/

theorem buildMapGo_append (l1 l2 : List LogEntry) (p : Nat)
    (m : List (String × Nat)) (c : Nat) :
    buildMapGo (l1 ++ l2) p m c =
      buildMapGo l2 (p + logLen l1) (buildMapGo l1 p m c).1 (buildMapGo l1 p m c).2 := by
  induction l1 generalizing p m c with
  | nil => simp [buildMapGo, logLen]
  | cons e rest ih =>
    rw [List.cons_append]
    simp only [buildMapGo, logLen]
    rw [ih]
    have h : p + encLen e + logLen rest = p + (encLen e + logLen rest) := by omega
    rw [h]

theorem replay_append_set (log : List LogEntry) (k v : String) :
    replay (log ++ [{ key := k, value := some v }]) =
      mapInsert (replay log) k (logLen log) := by
  unfold replay
  rw [buildMapGo_append]
  simp [buildMapGo]

theorem replay_append_rm (log : List LogEntry) (k : String) :
    replay (log ++ [{ key := k, value := none }]) = mapErase (replay log) k := by
  unfold replay
  rw [buildMapGo_append]
  simp [buildMapGo]

theorem buildMapGo_nodup (l : List LogEntry) (p : Nat)
    (m : List (String × Nat)) (c : Nat) (h : (m.map Prod.fst).Nodup) :
    (((buildMapGo l p m c).1).map Prod.fst).Nodup := by
  induction l generalizing p m c with
  | nil => simpa [buildMapGo] using h
  | cons e rest ih =>
    simp only [buildMapGo]
    match he : e.value with
    | some v => exact ih _ _ _ (nodup_insert_keys _ _ _ h)
    | none => exact ih _ _ _ (nodup_erase_keys _ _ h)

theorem replay_nodup (log : List LogEntry) : ((replay log).map Prod.fst).Nodup := by
  unfold replay
  exact buildMapGo_nodup _ _ _ _ (by simp)

/-! Facts about get_at_offset. -/

theorem get_at_offset_ok (st : KvLogStore) (k : String) (pos : Nat) (v : String)
    (h : findAt st.log pos = some { key := k, value := some v }) :
    st.get_at_offset k pos = KvResult.ok v := by
  have hlt := findAt_lt h
  unfold KvLogStore.get_at_offset
  rw [if_neg (by omega), h]
  simp

/-! Preservation of the View relation. -/

theorem View_set {m : List (String × Nat)} {log : List LogEntry}
    {r : List (String × String)} (h : View m log r) (k v : String) :
    View (mapInsert m k (logLen log)) (log ++ [{ key := k, value := some v }])
      (mapInsert r k v) := by
  intro k'
  by_cases hk : k' = k
  · subst hk
    rw [lookup_insert, lookup_insert]
    refine ⟨by simp, ?_⟩
    intro off v' hoff hv
    injection hoff with hoff
    injection hv with hv
    subst hoff
    subst hv
    exact findAt_append_last log _
  · rw [lookup_insert_ne _ _ hk, lookup_insert_ne _ _ hk]
    refine ⟨(h k').1, ?_⟩
    intro off v' hoff hv
    have hfind := (h k').2 off v' hoff hv
    rw [findAt_append_left _ (findAt_lt hfind)]
    exact hfind

theorem View_rm {m : List (String × Nat)} {log : List LogEntry}
    {r : List (String × String)} (h : View m log r) (k : String) :
    View (mapErase m k) (log ++ [{ key := k, value := none }]) (mapErase r k) := by
  intro k'
  by_cases hk : k' = k
  · subst hk
    rw [lookup_erase, lookup_erase]
    exact ⟨by simp, by intro off v h1 h2; exact absurd h1 (by simp)⟩
  · rw [lookup_erase_ne _ hk, lookup_erase_ne _ hk]
    refine ⟨(h k').1, ?_⟩
    intro off v' hoff hv
    have hfind := (h k').2 off v' hoff hv
    rw [findAt_append_left _ (findAt_lt hfind)]
    exact hfind

theorem KvLogStore.set_eq (st : KvLogStore) (k v : String) :
    st.set k v = (logLen st.log,
      { st with
        log := st.log ++ [{ key := k, value := some v }]
        num_entries := st.num_entries + 1 }) := by
  simp [KvLogStore.set, commit_operation_eq]

theorem KvLogStore.remove_eq (st : KvLogStore) (k : String) :
    st.remove k = { st with
      log := st.log ++ [{ key := k, value := none }]
      num_entries := st.num_entries + 1 } := by
  simp [KvLogStore.remove, commit_operation_eq]

/-! Facts about the compaction analysis gate. -/

theorem analysis_preserves (st : KvLogStore) (l : Nat) :
    (compaction_analysis st l).2.log = st.log ∧
    (compaction_analysis st l).2.compactFile = st.compactFile ∧
    (compaction_analysis st l).2.num_entries = st.num_entries := by
  unfold compaction_analysis
  split_ifs <;> simp

theorem analysis_true_eq (st : KvLogStore) (l : Nat)
    (h : (compaction_analysis st l).1 = true) :
    compaction_analysis st l = (true, st) := by
  unfold compaction_analysis at h ⊢
  split_ifs at h ⊢ <;> simp_all

/-! Facts about the compaction loop. -/

theorem compactLoop_keys (st : KvLogStore) (entries : List (String × Nat)) :
    ∀ temp, ((compactLoop st entries temp).2.1).map Prod.fst = entries.map Prod.fst := by
  induction entries with
  | nil => intro temp; simp [compactLoop]
  | cons p rest ih =>
    intro temp
    obtain ⟨key, pos⟩ := p
    unfold compactLoop
    match hg : st.get_at_offset key pos with
    | KvResult.ok v => simp [ih]
    | KvResult.err e => simp
    | KvResult.panicked => simp

theorem compactLoop_temp_extends (st : KvLogStore) (entries : List (String × Nat)) :
    ∀ temp, ∃ added, (compactLoop st entries temp).2.2 = temp ++ added := by
  induction entries with
  | nil => intro temp; exact ⟨[], by simp [compactLoop]⟩
  | cons p rest ih =>
    intro temp
    obtain ⟨key, pos⟩ := p
    unfold compactLoop
    match hg : st.get_at_offset key pos with
    | KvResult.ok v =>
      obtain ⟨added, hadd⟩ := ih ((commit_operation { key := key, value := some v } temp).2)
      refine ⟨[{ key := key, value := some v }] ++ added, ?_⟩
      simp only []
      rw [hadd, commit_operation_eq]
      simp
    | KvResult.err e => exact ⟨[], by simp⟩
    | KvResult.panicked => exact ⟨[], by simp⟩

theorem compactLoop_nil (st : KvLogStore) (temp : List LogEntry) :
    compactLoop st [] temp = (KvResult.ok (), [], temp) := rfl

theorem compactLoop_cons_ok (st : KvLogStore) (key : String) (pos : Nat)
    (rest : List (String × Nat)) (temp : List LogEntry) (v : String)
    (hg : st.get_at_offset key pos = KvResult.ok v) :
    compactLoop st ((key, pos) :: rest) temp =
      ((compactLoop st rest (temp ++ [{ key := key, value := some v }])).1,
       (key, logLen temp) ::
         (compactLoop st rest (temp ++ [{ key := key, value := some v }])).2.1,
       (compactLoop st rest (temp ++ [{ key := key, value := some v }])).2.2) := by
  simp [compactLoop, hg, commit_operation_eq]

theorem compactLoop_cons_err (st : KvLogStore) (key : String) (pos : Nat)
    (rest : List (String × Nat)) (temp : List LogEntry) (e : KvError)
    (hg : st.get_at_offset key pos = KvResult.err e) :
    compactLoop st ((key, pos) :: rest) temp =
      (KvResult.err e, (key, pos) :: rest, temp) := by
  simp [compactLoop, hg]

theorem compactLoop_cons_panic (st : KvLogStore) (key : String) (pos : Nat)
    (rest : List (String × Nat)) (temp : List LogEntry)
    (hg : st.get_at_offset key pos = KvResult.panicked) :
    compactLoop st ((key, pos) :: rest) temp =
      (KvResult.panicked, (key, pos) :: rest, temp) := by
  simp [compactLoop, hg]

theorem compactLoop_ok_shape (st : KvLogStore) (entries : List (String × Nat)) :
    ∀ (temp : List LogEntry) (u : Unit) (m' : List (String × Nat))
      (tempOut : List LogEntry),
    compactLoop st entries temp = (KvResult.ok u, m', tempOut) →
    ∃ recs, tempOut = temp ++ recs ∧ recs.length = entries.length ∧
      ∀ k off, mapLookup m' k = some off → logLen temp ≤ off ∧
        ∃ v, findAt tempOut off = some { key := k, value := some v } := by
  induction entries with
  | nil =>
    intro temp u m' tempOut h
    rw [compactLoop_nil] at h
    injection h with h1 h23
    injection h23 with h2 h3
    refine ⟨[], by rw [← h3]; simp, by simp, ?_⟩
    intro k off hk
    rw [← h2] at hk
    simp [mapLookup] at hk
  | cons p rest ih =>
    intro temp u m' tempOut h
    obtain ⟨key, pos⟩ := p
    cases hg : st.get_at_offset key pos with
    | ok v =>
      rw [compactLoop_cons_ok st key pos rest temp v hg] at h
      injection h with h1 h23
      injection h23 with h2 h3
      have hrec : compactLoop st rest (temp ++ [{ key := key, value := some v }]) =
          (KvResult.ok u,
           (compactLoop st rest (temp ++ [{ key := key, value := some v }])).2.1,
           (compactLoop st rest (temp ++ [{ key := key, value := some v }])).2.2) := by
        rw [← h1]
      obtain ⟨recs', hro, hrl, hrk⟩ :=
        ih (temp ++ [{ key := key, value := some v }]) u _ _ hrec
      refine ⟨{ key := key, value := some v } :: recs', ?_, ?_, ?_⟩
      · rw [← h3, hro]
        simp
      · simp [hrl]
      · intro k off hk
        rw [← h2] at hk
        unfold mapLookup at hk
        by_cases hkey : key = k
        · rw [if_pos hkey] at hk
          injection hk with hk
          subst hk
          subst hkey
          refine ⟨Nat.le_refl _, v, ?_⟩
          rw [← h3, hro]
          rw [findAt_append_left recs'
            (by rw [logLen_append]; have := encLen_pos { key := key, value := some v };
                simp [logLen]; omega)]
          exact findAt_append_last temp _
        · rw [if_neg hkey] at hk
          obtain ⟨ha, hb⟩ := hrk k off hk
          rw [logLen_append] at ha
          refine ⟨by omega, ?_⟩
          rw [hro] at hb
          rw [← h3, hro]
          exact hb
    | err e =>
      rw [compactLoop_cons_err st key pos rest temp e hg] at h
      injection h with h1 h23
      exact KvResult.noConfusion h1
    | panicked =>
      rw [compactLoop_cons_panic st key pos rest temp hg] at h
      injection h with h1 h23
      exact KvResult.noConfusion h1

theorem compactOut_nil (st : KvLogStore) (base : Nat) :
    compactOut st [] base = some ([], []) := rfl

theorem compactOut_cons_ok (st : KvLogStore) (key : String) (pos : Nat)
    (rest : List (String × Nat)) (base : Nat) (v : String)
    (hg : st.get_at_offset key pos = KvResult.ok v) :
    compactOut st ((key, pos) :: rest) base =
      match compactOut st rest (base + encLen { key := key, value := some v }) with
      | some pr => some ((key, base) :: pr.1, { key := key, value := some v } :: pr.2)
      | none => none := by
  simp [compactOut, hg]

theorem compactOut_sound (st : KvLogStore) (rv : String → Option String) :
    ∀ (entries : List (String × Nat)) (base : Nat),
    (∀ p ∈ entries, ∃ v, rv p.1 = some v ∧
        findAt st.log p.2 = some { key := p.1, value := some v }) →
    ((entries.map Prod.fst).Nodup) →
    ∃ m recs, compactOut st entries base = some (m, recs) ∧
      m.map Prod.fst = entries.map Prod.fst ∧
      recs.length = entries.length ∧
      recs.map LogEntry.key = entries.map Prod.fst ∧
      (∀ e ∈ recs, e.value.isSome = true) ∧
      (∀ k off, mapLookup m k = some off → base ≤ off ∧
        ∃ v, findAt recs (off - base) = some { key := k, value := some v } ∧
          rv k = some v) ∧
      (∀ (m0 : List (String × Nat)) (c0 : Nat),
        (∀ p ∈ entries, mapLookup m0 p.1 = none) →
        buildMapGo recs base m0 c0 = (m0 ++ m, c0 + entries.length)) := by
  intro entries
  induction entries with
  | nil =>
    intro base hval hnd
    refine ⟨[], [], rfl, rfl, rfl, rfl, by simp, ?_, ?_⟩
    · intro k off hk
      simp [mapLookup] at hk
    · intro m0 c0 hdisj
      simp [buildMapGo]
  | cons p rest ih =>
    intro base hval hnd
    obtain ⟨key, pos⟩ := p
    obtain ⟨v0, hrv0, hfind0⟩ := hval (key, pos) (List.mem_cons_self _ _)
    have hok : st.get_at_offset key pos = KvResult.ok v0 :=
      get_at_offset_ok st key pos v0 hfind0
    rw [List.map_cons, List.nodup_cons] at hnd
    obtain ⟨m', recs', hco', hkeys', hlen', hrkeys', hsome', hlook', hbuild'⟩ :=
      ih (base + encLen { key := key, value := some v0 })
        (fun p hp => hval p (List.mem_cons_of_mem _ hp)) hnd.2
    have hpos := encLen_pos { key := key, value := some v0 }
    refine ⟨(key, base) :: m', { key := key, value := some v0 } :: recs', ?_, ?_, ?_, ?_, ?_, ?_, ?_⟩
    · rw [compactOut_cons_ok st key pos rest base v0 hok, hco']
    · rw [List.map_cons, List.map_cons, hkeys']
    · simp [hlen']
    · rw [List.map_cons, List.map_cons, hrkeys']
    · intro e he
      rcases List.mem_cons.mp he with h1 | h1
      · rw [h1]
        rfl
      · exact hsome' e h1
    · intro k off hk
      unfold mapLookup at hk
      by_cases hkey : key = k
      · rw [if_pos hkey] at hk
        injection hk with hk
        subst hk
        subst hkey
        refine ⟨Nat.le_refl _, v0, ?_, hrv0⟩
        simp [findAt]
      · rw [if_neg hkey] at hk
        obtain ⟨hle, v', hfind', hrv'⟩ := hlook' k off hk
        refine ⟨by omega, v', ?_, hrv'⟩
        unfold findAt
        have hne0 : ¬(off - base = 0) := by omega
        have hlt : ¬(off - base < encLen { key := key, value := some v0 }) := by omega
        rw [if_neg hne0, if_neg hlt]
        have harith : off - base - encLen { key := key, value := some v0 } =
            off - (base + encLen { key := key, value := some v0 }) := by omega
        rw [harith]
        exact hfind'
    · intro m0 c0 hdisj
      have hm0 : mapLookup m0 key = none := hdisj (key, pos) (List.mem_cons_self _ _)
      have hstep : buildMapGo ({ key := key, value := some v0 } :: recs') base m0 c0 =
          buildMapGo recs' (base + encLen { key := key, value := some v0 })
            (mapInsert m0 key base) (c0 + 1) := by
        simp [buildMapGo]
      rw [hstep, insert_of_lookup_none m0 key base hm0]
      have hdisj' : ∀ p ∈ rest, mapLookup (m0 ++ [(key, base)]) p.1 = none := by
        intro p hp
        have h1 : mapLookup m0 p.1 = none := hdisj p (List.mem_cons_of_mem _ hp)
        rw [lookup_append_none m0 _ _ h1]
        have hne : ¬(key = p.1) := by
          intro hh
          apply hnd.1
          rw [hh]
          exact List.mem_map.mpr ⟨p, hp, rfl⟩
        simp [mapLookup, hne]
      rw [hbuild' _ _ hdisj']
      have hassoc : (m0 ++ [(key, base)]) ++ m' = m0 ++ ((key, base) :: m') := by
        simp
      have hcount : c0 + 1 + rest.length = c0 + (rest.length + 1) := by omega
      rw [hassoc, hcount]
      simp

theorem compactOut_cons_err (st : KvLogStore) (key : String) (pos : Nat)
    (rest : List (String × Nat)) (base : Nat) (e : KvError)
    (hg : st.get_at_offset key pos = KvResult.err e) :
    compactOut st ((key, pos) :: rest) base = none := by
  simp [compactOut, hg]

theorem compactOut_cons_panic (st : KvLogStore) (key : String) (pos : Nat)
    (rest : List (String × Nat)) (base : Nat)
    (hg : st.get_at_offset key pos = KvResult.panicked) :
    compactOut st ((key, pos) :: rest) base = none := by
  simp [compactOut, hg]

theorem compactLoop_of_compactOut (st : KvLogStore) :
    ∀ (entries : List (String × Nat)) (temp : List LogEntry)
      (m : List (String × Nat)) (recs : List LogEntry),
    compactOut st entries (logLen temp) = some (m, recs) →
    compactLoop st entries temp = (KvResult.ok (), m, temp ++ recs) := by
  intro entries
  induction entries with
  | nil =>
    intro temp m recs h
    rw [compactOut_nil] at h
    injection h with h
    injection h with h1 h2
    rw [compactLoop_nil, ← h1, ← h2]
    simp
  | cons p rest ih =>
    intro temp m recs h
    obtain ⟨key, pos⟩ := p
    cases hg : st.get_at_offset key pos with
    | ok v =>
      rw [compactOut_cons_ok st key pos rest (logLen temp) v hg] at h
      cases hco : compactOut st rest
          (logLen temp + encLen { key := key, value := some v }) with
      | none =>
        rw [hco] at h
        exact Option.noConfusion h
      | some pr =>
        rw [hco] at h
        injection h with h
        injection h with h1 h2
        have hlen1 : logLen (temp ++ [{ key := key, value := some v }]) =
            logLen temp + encLen { key := key, value := some v } := by
          rw [logLen_append]
          simp [logLen]
        have hco' : compactOut st rest
            (logLen (temp ++ [{ key := key, value := some v }])) = some (pr.1, pr.2) := by
          rw [hlen1, hco]
        have hrec := ih (temp ++ [{ key := key, value := some v }]) pr.1 pr.2 hco'
        rw [compactLoop_cons_ok st key pos rest temp v hg, hrec]
        rw [← h1, ← h2]
        simp
    | err e =>
      rw [compactOut_cons_err st key pos rest (logLen temp) e hg] at h
      exact Option.noConfusion h
    | panicked =>
      rw [compactOut_cons_panic st key pos rest (logLen temp) hg] at h
      exact Option.noConfusion h

/-! Equations for do_compaction. -/

theorem do_compaction_analysis_false (st : KvLogStore) (map : List (String × Nat))
    (h : (compaction_analysis st map.length).1 = false) :
    st.do_compaction map =
      (KvResult.ok false, map, (compaction_analysis st map.length).2) := by
  simp [KvLogStore.do_compaction, h]

theorem do_compaction_ok_eq (st : KvLogStore) (map m2 : List (String × Nat))
    (temp2 : List LogEntry) (h : (compaction_analysis st map.length).1 = true)
    (hloop : compactLoop st map st.compactFile = (KvResult.ok (), m2, temp2)) :
    st.do_compaction map = (KvResult.ok true, m2,
      { st with log := temp2, compactFile := [], num_entries := m2.length }) := by
  have ha := analysis_true_eq st map.length h
  simp [KvLogStore.do_compaction, ha, hloop]

theorem do_compaction_err_eq (st : KvLogStore) (map m2 : List (String × Nat))
    (temp2 : List LogEntry) (e : KvError)
    (h : (compaction_analysis st map.length).1 = true)
    (hloop : compactLoop st map st.compactFile = (KvResult.err e, m2, temp2)) :
    st.do_compaction map = (KvResult.err e, m2, { st with compactFile := temp2 }) := by
  have ha := analysis_true_eq st map.length h
  simp [KvLogStore.do_compaction, ha, hloop]

/-- Core preservation lemma: from a reachable configuration, the compaction
gate (whether it fires or not) returns Ok and preserves the invariant. -/
theorem do_compaction_GInv (st : KvLogStore) (m : List (String × Nat))
    (r : List (String × String))
    (hrep : m = replay st.log) (hcf : st.compactFile = [])
    (hview : View m st.log r) :
    ∃ b m' st2, st.do_compaction m = (KvResult.ok b, m', st2) ∧
      m' = replay st2.log ∧ st2.compactFile = [] ∧ View m' st2.log r := by
  cases hb : (compaction_analysis st m.length).1 with
  | false =>
    refine ⟨false, m, (compaction_analysis st m.length).2,
      do_compaction_analysis_false st m hb, ?_, ?_, ?_⟩
    · rw [(analysis_preserves st m.length).1]
      exact hrep
    · rw [(analysis_preserves st m.length).2.1]
      exact hcf
    · rw [(analysis_preserves st m.length).1]
      exact hview
  | true =>
    have hnd : (m.map Prod.fst).Nodup := by
      rw [hrep]
      exact replay_nodup st.log
    have hval : ∀ p ∈ m, ∃ v, mapLookup r p.1 = some v ∧
        findAt st.log p.2 = some { key := p.1, value := some v } := by
      intro p hp
      have hlk := lookup_of_mem_nodup m hnd p hp
      cases hr : mapLookup r p.1 with
      | none =>
        have hcontra := (hview p.1).1.mpr hr
        rw [hlk] at hcontra
        exact Option.noConfusion hcontra
      | some v =>
        exact ⟨v, rfl, (hview p.1).2 p.2 v hlk hr⟩
    obtain ⟨m', recs, hco, hkeys, hlen, hrkeys, hsome, hlook, hbuild⟩ :=
      compactOut_sound st (fun k => mapLookup r k) m 0 hval hnd
    have hloop : compactLoop st m st.compactFile = (KvResult.ok (), m', [] ++ recs) := by
      rw [hcf]
      apply compactLoop_of_compactOut
      simpa [logLen] using hco
    refine ⟨true, m',
      { st with
        log := [] ++ recs
        compactFile := []
        num_entries := m'.length },
      do_compaction_ok_eq st m m' ([] ++ recs) hb hloop, ?_, rfl, ?_⟩
    · show m' = replay ([] ++ recs)
      rw [List.nil_append]
      unfold replay
      rw [hbuild [] 0 (fun p hp => rfl)]
      simp
    · show View m' ([] ++ recs) r
      rw [List.nil_append]
      intro k
      refine ⟨⟨?_, ?_⟩, ?_⟩
      · intro hn
        rw [lookup_none_iff, hkeys, ← lookup_none_iff] at hn
        exact (hview k).1.mp hn
      · intro hn
        rw [lookup_none_iff, hkeys, ← lookup_none_iff]
        exact (hview k).1.mpr hn
      · intro off v h1 h2
        obtain ⟨hle, v', hfind, hrv⟩ := hlook k off h1
        rw [h2] at hrv
        injection hrv with hrv
        rw [Nat.sub_zero] at hfind
        rw [← hrv] at hfind
        exact hfind

/-! Equations for the KvStore operations. -/

theorem KvStore.set_ok_eq (s : KvStore) (k v : String) (b : Bool)
    (m1 : List (String × Nat)) (l1 : KvLogStore)
    (hdo : s.kvlog.do_compaction s.kvmap = (KvResult.ok b, m1, l1)) :
    s.set k v = (KvResult.ok (),
      { kvmap := mapInsert m1 k (logLen l1.log)
        kvlog := { l1 with
          log := l1.log ++ [{ key := k, value := some v }]
          num_entries := l1.num_entries + 1 } }) := by
  simp [KvStore.set, hdo, KvLogStore.set_eq]

theorem KvStore.remove_absent_eq (s : KvStore) (k : String) (b : Bool)
    (m1 : List (String × Nat)) (l1 : KvLogStore)
    (hdo : s.kvlog.do_compaction s.kvmap = (KvResult.ok b, m1, l1))
    (habs : mapLookup m1 k = none) :
    s.remove k = (KvResult.err KvError.keyNotFound,
      { kvmap := m1, kvlog := l1 }) := by
  simp [KvStore.remove, hdo, habs]

theorem KvStore.remove_present_eq (s : KvStore) (k : String) (b : Bool)
    (m1 : List (String × Nat)) (l1 : KvLogStore) (off : Nat)
    (hdo : s.kvlog.do_compaction s.kvmap = (KvResult.ok b, m1, l1))
    (hoff : mapLookup m1 k = some off) :
    s.remove k = (KvResult.ok (),
      { kvmap := mapErase m1 k
        kvlog := { l1 with
          log := l1.log ++ [{ key := k, value := none }]
          num_entries := l1.num_entries + 1 } }) := by
  simp [KvStore.remove, hdo, hoff, KvLogStore.remove_eq]

/-! The invariant is preserved by every operation. -/

theorem set_GInv (s : KvStore) (r : List (String × String)) (k v : String)
    (h : GInv s r) : GInv ((s.set k v).2) (mapInsert r k v) := by
  obtain ⟨hrep, hcf, hview⟩ := h
  obtain ⟨b, m1, l1, hdo, hrep1, hcf1, hview1⟩ :=
    do_compaction_GInv s.kvlog s.kvmap r hrep hcf hview
  rw [KvStore.set_ok_eq s k v b m1 l1 hdo]
  refine ⟨?_, hcf1, ?_⟩
  · show mapInsert m1 k (logLen l1.log) =
      replay (l1.log ++ [{ key := k, value := some v }])
    rw [replay_append_set, ← hrep1]
  · exact View_set hview1 k v

theorem remove_GInv (s : KvStore) (r : List (String × String)) (k : String)
    (h : GInv s r) : GInv ((s.remove k).2) (mapErase r k) := by
  obtain ⟨hrep, hcf, hview⟩ := h
  obtain ⟨b, m1, l1, hdo, hrep1, hcf1, hview1⟩ :=
    do_compaction_GInv s.kvlog s.kvmap r hrep hcf hview
  cases hk : mapLookup m1 k with
  | none =>
    rw [KvStore.remove_absent_eq s k b m1 l1 hdo hk]
    have hr : mapLookup r k = none := (hview1 k).1.mp hk
    rw [erase_of_lookup_none r k hr]
    exact ⟨hrep1, hcf1, hview1⟩
  | some off =>
    rw [KvStore.remove_present_eq s k b m1 l1 off hdo hk]
    refine ⟨?_, hcf1, ?_⟩
    · show mapErase m1 k = replay (l1.log ++ [{ key := k, value := none }])
      rw [replay_append_rm, ← hrep1]
    · exact View_rm hview1 k

theorem GInv_init : GInv (KvStore.openDir [] []) [] := by
  have heq : KvStore.openDir [] [] =
      { kvmap := [], kvlog := KvLogStore.new [] [] } := rfl
  rw [heq]
  refine ⟨rfl, rfl, ?_⟩
  intro k
  exact ⟨⟨fun _ => rfl, fun _ => rfl⟩, fun off v h1 h2 => Option.noConfusion h1⟩

theorem run_GInv (ops : List Op) :
    ∀ (s : KvStore) (r : List (String × String)), GInv s r →
    GInv (ops.foldl applyOp s) (ops.foldl refStep r) := by
  induction ops with
  | nil => intro s r h; exact h
  | cons op rest ih =>
    intro s r h
    rw [List.foldl_cons, List.foldl_cons]
    cases op with
    | set k v => exact ih _ _ (set_GInv s r k v h)
    | rm k => exact ih _ _ (remove_GInv s r k h)

theorem get_of_GInv (s : KvStore) (r : List (String × String)) (k : String)
    (h : GInv s r) : s.get k = KvResult.ok (mapLookup r k) := by
  obtain ⟨hrep, hcf, hview⟩ := h
  cases hm : mapLookup s.kvmap k with
  | none =>
    have hr : mapLookup r k = none := (hview k).1.mp hm
    rw [hr]
    simp [KvStore.get, hm]
  | some off =>
    cases hr : mapLookup r k with
    | none =>
      have hcontra := (hview k).1.mpr hr
      rw [hm] at hcontra
      exact Option.noConfusion hcontra
    | some v =>
      have hfind := (hview k).2 off v hm hr
      have hok := get_at_offset_ok s.kvlog k off v hfind
      simp [KvStore.get, hm, hok]

theorem KvStore.openDir_eq (lf cf : List LogEntry) :
    KvStore.openDir lf cf =
      { kvmap := replay lf
        kvlog := { log := lf
                   compactFile := cf
                   num_entries := (buildMapGo lf 0 [] 0).2
                   max_entries := 1024 } } := by
  simp [KvStore.openDir, KvLogStore.build_map, KvLogStore.new, replay]

theorem get_only_log (m : List (String × Nat)) (log cf1 cf2 : List LogEntry)
    (n1 n2 x1 x2 : Nat) (k : String) :
    KvStore.get
      { kvmap := m
        kvlog := { log := log
                   compactFile := cf1
                   num_entries := n1
                   max_entries := x1 } } k =
    KvStore.get
      { kvmap := m
        kvlog := { log := log
                   compactFile := cf2
                   num_entries := n2
                   max_entries := x2 } } k := by
  simp [KvStore.get, KvLogStore.get_at_offset]

/-- C1: for every finite sequence S of set and remove operations applied to a
freshly opened store and every key k, get(k) after S equals the lookup in the
reference in-memory map obtained by applying S (insert for set, erase for
remove): Some of the last value set when the last operation on k is a set,
None when k was never set or was last removed. -/
theorem c1_map_equivalence (ops : List Op) (k : String) :
    (runOps ops).get k = KvResult.ok (mapLookup (runRef ops) k) := by
  unfold runOps runRef
  exact get_of_GInv _ _ k (run_GInv ops _ _ GInv_init)

/-- C2: after any sequence S from a fresh store, reopening a store on the
same directory (the same active log file and compaction temp file) yields a
store whose get agrees with the store before the close on every key: open
replays the log from byte 0 and rebuilds exactly the in-memory index. -/
theorem c2_reopen_preserves_get (ops : List Op) (k : String) :
    (KvStore.openDir (runOps ops).kvlog.log (runOps ops).kvlog.compactFile).get k =
      (runOps ops).get k := by
  obtain ⟨hrep, hcf, hview⟩ : GInv (runOps ops) (runRef ops) := by
    unfold runOps runRef
    exact run_GInv ops _ _ GInv_init
  rw [KvStore.openDir_eq, ← hrep]
  exact get_only_log (runOps ops).kvmap (runOps ops).kvlog.log _ _ _ _ _ _ k

/-- C3: immediately after a compaction runs (do_compaction returns Ok true)
from a state whose temp file is absent and whose index offsets are valid Set
records, the active log holds exactly one Set record per index key and
nothing else (same key list, all records Sets, record count equal to the
number of live keys), every index entry now holds the offset of its Set
record in the compacted file, and the record counter is reset to the index
size. -/
theorem c3_compaction_postcondition (st : KvLogStore) (map m' : List (String × Nat))
    (st2 : KvLogStore)
    (hcf : st.compactFile = [])
    (hnd : (map.map Prod.fst).Nodup)
    (hval : ∀ p ∈ map, ∃ v, findAt st.log p.2 = some { key := p.1, value := some v })
    (hdo : st.do_compaction map = (KvResult.ok true, m', st2)) :
    st2.log.map LogEntry.key = m'.map Prod.fst ∧
    (∀ e ∈ st2.log, e.value.isSome = true) ∧
    st2.log.length = m'.length ∧
    m'.map Prod.fst = map.map Prod.fst ∧
    (∀ k off, mapLookup m' k = some off →
      ∃ v, findAt st2.log off = some { key := k, value := some v }) ∧
    st2.num_entries = m'.length := by
  cases hb : (compaction_analysis st map.length).1 with
  | false =>
    rw [do_compaction_analysis_false st map hb] at hdo
    injection hdo with h1 h2
    injection h1 with h1
    exact Bool.noConfusion h1
  | true =>
    have hval' : ∀ p ∈ map, ∃ v,
        (fun q => match mapLookup map q with
         | some off => match findAt st.log off with
           | some e => e.value
           | none => none
         | none => none) p.1 = some v ∧
        findAt st.log p.2 = some { key := p.1, value := some v } := by
      intro p hp
      obtain ⟨v, hfind⟩ := hval p hp
      refine ⟨v, ?_, hfind⟩
      have hlk := lookup_of_mem_nodup map hnd p hp
      simp only [hlk, hfind]
    obtain ⟨m2, recs, hco, hkeys, hlen, hrkeys, hsome, hlook, hbuild⟩ :=
      compactOut_sound st
        (fun q => match mapLookup map q with
         | some off => match findAt st.log off with
           | some e => e.value
           | none => none
         | none => none) map 0 hval' hnd
    have hloop : compactLoop st map st.compactFile =
        (KvResult.ok (), m2, [] ++ recs) := by
      rw [hcf]
      apply compactLoop_of_compactOut
      simpa [logLen] using hco
    rw [do_compaction_ok_eq st map m2 ([] ++ recs) hb hloop] at hdo
    injection hdo with h1 h23
    injection h23 with h2 h3
    rw [← h2, ← h3]
    have hmlen : m2.length = map.length := by
      have hc := congrArg List.length hkeys
      simpa using hc
    refine ⟨?_, ?_, ?_, hkeys, ?_, ?_⟩
    · show ([] ++ recs).map LogEntry.key = m2.map Prod.fst
      rw [List.nil_append, hrkeys, hkeys]
    · show ∀ e ∈ ([] ++ recs), e.value.isSome = true
      rw [List.nil_append]
      exact hsome
    · show ([] ++ recs).length = m2.length
      rw [List.nil_append, hlen, hmlen]
    · intro k off hk
      obtain ⟨hle, v, hfind, hrv⟩ := hlook k off hk
      rw [Nat.sub_zero] at hfind
      refine ⟨v, ?_⟩
      show findAt ([] ++ recs) off = some { key := k, value := some v }
      rw [List.nil_append]
      exact hfind
    · rfl


/-- Witness for C3: the compaction postcondition evaluated at the concrete
state exSt3 with index exMap3. -/
theorem c3_witness :
    exSt3post.log.map LogEntry.key = exMap3.map Prod.fst ∧
    (∀ e ∈ exSt3post.log, e.value.isSome = true) ∧
    exSt3post.log.length = exMap3.length ∧
    exMap3.map Prod.fst = exMap3.map Prod.fst ∧
    (∀ k off, mapLookup exMap3 k = some off →
      ∃ v, findAt exSt3post.log off = some { key := k, value := some v }) ∧
    exSt3post.num_entries = exMap3.length := by
  exact c3_compaction_postcondition exSt3 exMap3 exMap3 exSt3post rfl (by decide)
    (by
      intro p hp
      rw [show exMap3 = [(("a" : String), 0)] from rfl, List.mem_singleton] at hp
      subst hp
      exact ⟨("x"), rfl⟩)
    (by decide)

/-- C8: every append through KvLogStore::set and commit_operation returns
the byte offset of the first byte of the record just written, equal to the
byte length of the log before the write, and the decoder started at that
offset finds exactly the just-written record. -/
theorem c8_append_offset (st : KvLogStore) (k v : String) (e : LogEntry)
    (file : List LogEntry) :
    (st.set k v).1 = logLen st.log ∧
    (st.set k v).2.log = st.log ++ [{ key := k, value := some v }] ∧
    findAt (st.set k v).2.log (st.set k v).1 = some { key := k, value := some v } ∧
    (commit_operation e file).1 = logLen file ∧
    findAt (commit_operation e file).2 (commit_operation e file).1 = some e := by
  rw [KvLogStore.set_eq]
  refine ⟨rfl, rfl, ?_, ?_, ?_⟩
  · exact findAt_append_last st.log _
  · rw [commit_operation_eq]
  · rw [commit_operation_eq]
    exact findAt_append_last file e

theorem do_compaction_panic_eq (st : KvLogStore) (map m2 : List (String × Nat))
    (temp2 : List LogEntry)
    (h : (compaction_analysis st map.length).1 = true)
    (hloop : compactLoop st map st.compactFile = (KvResult.panicked, m2, temp2)) :
    st.do_compaction map = (KvResult.panicked, m2, { st with compactFile := temp2 }) := by
  have ha := analysis_true_eq st map.length h
  simp [KvLogStore.do_compaction, ha, hloop]

theorem doubleWhile_fuel_ge (n : Nat) :
    ∀ (fuel m : Nat), n - m ≤ fuel → 0 < m → n ≤ doubleWhile n m := by
  intro fuel
  induction fuel with
  | zero =>
    intro m hle h
    rw [doubleWhile]
    have hnm : ¬(0 < m ∧ m < n) := by omega
    rw [dif_neg hnm]
    omega
  | succ f ih =>
    intro m hle h
    rw [doubleWhile]
    by_cases hc : 0 < m ∧ m < n
    · rw [dif_pos hc]
      exact ih (2 * m) (by omega) (by omega)
    · rw [dif_neg hc]
      omega

theorem doubleWhile_ge (n m : Nat) : 0 < m → n ≤ doubleWhile n m :=
  fun h => doubleWhile_fuel_ge n (n - m) m (Nat.le_refl _) h

theorem doubleWhile_fuel_lt (n : Nat) :
    ∀ (fuel m : Nat), n - m ≤ fuel → 0 < m → m < 2 * n →
      doubleWhile n m < 2 * n := by
  intro fuel
  induction fuel with
  | zero =>
    intro m hle h1 h2
    rw [doubleWhile]
    have hnm : ¬(0 < m ∧ m < n) := by omega
    rw [dif_neg hnm]
    exact h2
  | succ f ih =>
    intro m hle h1 h2
    rw [doubleWhile]
    by_cases hc : 0 < m ∧ m < n
    · rw [dif_pos hc]
      exact ih (2 * m) (by omega) (by omega) (by omega)
    · rw [dif_neg hc]
      exact h2

theorem doubleWhile_lt (n m : Nat) : 0 < m → m < 2 * n → doubleWhile n m < 2 * n :=
  fun h1 h2 => doubleWhile_fuel_lt n (n - m) m (Nat.le_refl _) h1 h2

/-- C4 amended: the per-store threshold max_entries starts at 1024;
compaction runs at a mutating call exactly when num_entries has reached the
threshold AND num_entries is at least twice the live-key count; when the
threshold is reached but num_entries is below twice the live-key count,
compaction is skipped and the threshold is doubled until it is at least
num_entries (so the new threshold lies in [num_entries, 2 num_entries));
after a compaction the threshold is left unchanged and the record count is
reset to the index size. -/
theorem c4_policy_amended (st : KvLogStore) (len : Nat) (map m' : List (String × Nat))
    (st2 : KvLogStore) (hm : 0 < st.max_entries) :
    ((compaction_analysis st len).1 = true ↔
      st.max_entries ≤ st.num_entries ∧ 2 * len ≤ st.num_entries) ∧
    (st.max_entries ≤ st.num_entries → st.num_entries < 2 * len →
      (compaction_analysis st len).1 = false ∧
      st.num_entries ≤ (compaction_analysis st len).2.max_entries ∧
      (compaction_analysis st len).2.max_entries < 2 * st.num_entries) ∧
    (st.do_compaction map = (KvResult.ok true, m', st2) →
      st2.max_entries = st.max_entries ∧ st2.num_entries = map.length) ∧
    (KvLogStore.new [] []).max_entries = 1024 := by
  refine ⟨?_, ?_, ?_, rfl⟩
  · unfold compaction_analysis
    split_ifs with h1 h2
    · simp
      omega
    · simp
      omega
    · simp
      omega
  · intro hge hlt
    unfold compaction_analysis
    have h1 : ¬(st.num_entries < st.max_entries) := by omega
    rw [if_neg h1, if_pos hlt]
    refine ⟨rfl, ?_, ?_⟩
    · exact doubleWhile_ge _ _ hm
    · exact doubleWhile_lt _ _ hm (by omega)
  · intro hdo
    cases hb : (compaction_analysis st map.length).1 with
    | false =>
      rw [do_compaction_analysis_false st map hb] at hdo
      injection hdo with ha hrest
      injection ha with ha
      exact Bool.noConfusion ha
    | true =>
      rcases hr : compactLoop st map st.compactFile with ⟨r1, r2, r3⟩
      cases r1 with
      | ok u =>
        cases u
        rw [do_compaction_ok_eq st map r2 r3 hb hr] at hdo
        injection hdo with h1 h23
        injection h23 with h2 h3
        rw [← h3]
        refine ⟨rfl, ?_⟩
        show r2.length = map.length
        have hk := compactLoop_keys st map st.compactFile
        rw [hr] at hk
        have hc := congrArg List.length hk
        simpa using hc
      | err e =>
        rw [do_compaction_err_eq st map r2 r3 e hb hr] at hdo
        injection hdo with h1 hrest
        exact KvResult.noConfusion h1
      | panicked =>
        rw [do_compaction_panic_eq st map r2 r3 hb hr] at hdo
        injection hdo with h1 hrest
        exact KvResult.noConfusion h1

/-- C4 counterexample: with num_entries = 1024 at threshold 1024 (so N ≥ T)
but 600 live keys (N < 2 × live), the code skips compaction, refuting
"compaction runs exactly when N ≥ T". -/
theorem c4_counterexample :
    (compaction_analysis
      { log := [], compactFile := [], num_entries := 1024, max_entries := 1024 }
      600).1 = false ∧
    (1024 : Nat) ≤ 1024 := by
  exact ⟨rfl, Nat.le_refl _⟩

/-- Witness for C4: at num_entries 1500, threshold 1024, 1000 live keys the
gate skips and doubles the threshold into [1500, 3000). -/
theorem c4_witness :
    (compaction_analysis
      { log := [], compactFile := [], num_entries := 1500, max_entries := 1024 }
      1000).1 = false ∧
    1500 ≤ (compaction_analysis
      { log := [], compactFile := [], num_entries := 1500, max_entries := 1024 }
      1000).2.max_entries ∧
    (compaction_analysis
      { log := [], compactFile := [], num_entries := 1500, max_entries := 1024 }
      1000).2.max_entries < 2 * 1500 := by
  have h := (c4_policy_amended
    { log := [], compactFile := [], num_entries := 1500, max_entries := 1024 }
    1000 [] [] (KvLogStore.new [] []) (by decide)).2.1 (by decide) (by decide)
  exact ⟨h.1, h.2.1, h.2.2⟩

/-- C5 amended: if compaction fails before the rename, the error is surfaced
to the caller and the old active log and the counters are untouched, and the
index keeps its key set; but the index entries processed before the failure
have been redirected (the map is the partially rewritten one) and the
partially written temp file remains on disk (the temp file content has only
been extended). -/
theorem c5_failed_compaction_amended (st : KvLogStore) (map m' : List (String × Nat))
    (st2 : KvLogStore) (e : KvError)
    (hdo : st.do_compaction map = (KvResult.err e, m', st2)) :
    st2.log = st.log ∧ st2.num_entries = st.num_entries ∧
    st2.max_entries = st.max_entries ∧
    m'.map Prod.fst = map.map Prod.fst ∧
    ∃ added, st2.compactFile = st.compactFile ++ added := by
  cases hb : (compaction_analysis st map.length).1 with
  | false =>
    rw [do_compaction_analysis_false st map hb] at hdo
    injection hdo with h1 hrest
    exact KvResult.noConfusion h1
  | true =>
    rcases hr : compactLoop st map st.compactFile with ⟨r1, r2, r3⟩
    cases r1 with
    | ok u =>
      cases u
      rw [do_compaction_ok_eq st map r2 r3 hb hr] at hdo
      injection hdo with h1 hrest
      exact KvResult.noConfusion h1
    | err e2 =>
      rw [do_compaction_err_eq st map r2 r3 e2 hb hr] at hdo
      injection hdo with h1 h23
      injection h23 with h2 h3
      rw [← h3]
      refine ⟨rfl, rfl, rfl, ?_, ?_⟩
      · rw [← h2]
        have hk := compactLoop_keys st map st.compactFile
        rw [hr] at hk
        exact hk
      · obtain ⟨added, hadd⟩ := compactLoop_temp_extends st map st.compactFile
        rw [hr] at hadd
        exact ⟨added, hadd⟩
    | panicked =>
      rw [do_compaction_panic_eq st map r2 r3 hb hr] at hdo
      injection hdo with h1 hrest
      exact KvResult.noConfusion h1

/-- C5 counterexample: at the concrete state exSt5 with index exMap5, the
compaction fails before the rename and surfaces an error, yet the in-memory
index has been redirected — it maps a to offset 0, which in the OLD active
log starts the record of b, so reading a there fails — and the on-disk temp
file changed.  This refutes the clause that the index still maps every key
to a valid offset in the old active log (and that the on-disk state is
unchanged). -/
theorem c5_counterexample :
    (exSt5.do_compaction exMap5).1 = KvResult.err KvError.keyMismatch ∧
    mapLookup (exSt5.do_compaction exMap5).2.1 ("a") = some 0 ∧
    exSt5.get_at_offset ("a") 0 = KvResult.err KvError.keyMismatch ∧
    (exSt5.do_compaction exMap5).2.2.compactFile =
      [{ key := ("a"), value := some ("y") }] := by
  decide

/-- Witness for C5: the amended statement evaluated at the concrete failing
compaction of exSt5. -/
theorem c5_witness :
    exSt5post.log = exSt5.log ∧ exSt5post.num_entries = exSt5.num_entries ∧
    exSt5post.max_entries = exSt5.max_entries ∧
    exMap5post.map Prod.fst = exMap5.map Prod.fst ∧
    ∃ added, exSt5post.compactFile = exSt5.compactFile ++ added := by
  exact c5_failed_compaction_amended exSt5 exMap5 exMap5post exSt5post
    KvError.keyMismatch (by decide)

/-- C6 amended: remove first runs the compaction gate (which may compact the
log and rewrite the index offsets, preserving the key set); when the key is
then absent from the index the call returns the KeyNotFound error, appends
nothing to the log and leaves the post-gate index and log store exactly as
they are; when the key is present it appends the Remove tombstone and erases
the key. -/
theorem c6_remove_amended (s : KvStore) (k : String) (b : Bool)
    (m1 : List (String × Nat)) (l1 : KvLogStore)
    (hdo : s.kvlog.do_compaction s.kvmap = (KvResult.ok b, m1, l1)) :
    m1.map Prod.fst = s.kvmap.map Prod.fst ∧
    (mapLookup m1 k = none →
      (s.remove k).1 = KvResult.err KvError.keyNotFound ∧
      (s.remove k).2.kvmap = m1 ∧
      (s.remove k).2.kvlog = l1) ∧
    (∀ off, mapLookup m1 k = some off →
      (s.remove k).1 = KvResult.ok () ∧
      (s.remove k).2.kvmap = mapErase m1 k ∧
      (s.remove k).2.kvlog.log = l1.log ++ [{ key := k, value := none }]) := by
  refine ⟨?_, ?_, ?_⟩
  · cases hb2 : (compaction_analysis s.kvlog s.kvmap.length).1 with
    | false =>
      rw [do_compaction_analysis_false s.kvlog s.kvmap hb2] at hdo
      injection hdo with h1 h23
      injection h23 with h2 h3
      rw [← h2]
    | true =>
      rcases hr : compactLoop s.kvlog s.kvmap s.kvlog.compactFile with ⟨r1, r2, r3⟩
      cases r1 with
      | ok u =>
        cases u
        rw [do_compaction_ok_eq s.kvlog s.kvmap r2 r3 hb2 hr] at hdo
        injection hdo with h1 h23
        injection h23 with h2 h3
        rw [← h2]
        have hk := compactLoop_keys s.kvlog s.kvmap s.kvlog.compactFile
        rw [hr] at hk
        exact hk
      | err e =>
        rw [do_compaction_err_eq s.kvlog s.kvmap r2 r3 e hb2 hr] at hdo
        injection hdo with h1 hrest
        exact KvResult.noConfusion h1
      | panicked =>
        rw [do_compaction_panic_eq s.kvlog s.kvmap r2 r3 hb2 hr] at hdo
        injection hdo with h1 hrest
        exact KvResult.noConfusion h1
  · intro habs
    rw [KvStore.remove_absent_eq s k b m1 l1 hdo habs]
    exact ⟨rfl, rfl, rfl⟩
  · intro off hoff
    rw [KvStore.remove_present_eq s k b m1 l1 off hdo hoff]
    exact ⟨rfl, rfl, rfl⟩

/-- C6 counterexample: at the concrete store exS6 (at the compaction
threshold), remove of the absent key c returns KeyNotFound and appends no
tombstone, but the index does NOT stay unchanged: the compaction gate runs
first and rewrites every offset. -/
theorem c6_counterexample :
    mapLookup exS6.kvmap ("c") = none ∧
    (exS6.remove ("c")).1 = KvResult.err KvError.keyNotFound ∧
    ¬((exS6.remove ("c")).2.kvmap = exS6.kvmap) := by
  decide

/-- Witness for C6: the amended statement evaluated on a fresh store, where
the gate does nothing and remove of an absent key returns KeyNotFound with
no record appended. -/
theorem c6_witness :
    ([] : List (String × Nat)).map Prod.fst =
      (KvStore.openDir [] []).kvmap.map Prod.fst ∧
    ((KvStore.openDir [] []).remove ("a")).1 = KvResult.err KvError.keyNotFound ∧
    ((KvStore.openDir [] []).remove ("a")).2.kvmap = [] ∧
    ((KvStore.openDir [] []).remove ("a")).2.kvlog = KvLogStore.new [] [] := by
  have h := c6_remove_amended (KvStore.openDir [] []) ("a") false []
    (KvLogStore.new [] []) (by decide)
  obtain ⟨h1, h2, h3⟩ := h
  have hres := h2 (by decide)
  exact ⟨h1, hres.1, hres.2.1, hres.2.2⟩

/-- C7 amended: get_at_offset at a position that starts a Set record with
the expected key returns Ok its value; at a record with a mismatched key,
or a Remove record with the expected key, or a mid-record position (which
the decoder cannot parse), it returns a Corruption-class error; but at or
past end of file the decoder yields no record at all and the call PANICS
(it does not return an error to the caller). -/
theorem c7_read_at_amended (st : KvLogStore) (k : String) (pos : Nat) :
    (∀ v, findAt st.log pos = some { key := k, value := some v } →
      st.get_at_offset k pos = KvResult.ok v) ∧
    (findAt st.log pos = some { key := k, value := none } →
      st.get_at_offset k pos = KvResult.err KvError.mapOutOfSync) ∧
    (∀ e, findAt st.log pos = some e → ¬(e.key = k) →
      st.get_at_offset k pos = KvResult.err KvError.keyMismatch) ∧
    (pos < logLen st.log → findAt st.log pos = none →
      st.get_at_offset k pos = KvResult.err KvError.malformed) ∧
    (logLen st.log ≤ pos → st.get_at_offset k pos = KvResult.panicked) := by
  refine ⟨?_, ?_, ?_, ?_, ?_⟩
  · intro v h
    exact get_at_offset_ok st k pos v h
  · intro h
    have hlt := findAt_lt h
    unfold KvLogStore.get_at_offset
    rw [if_neg (by omega), h]
    simp
  · intro e h hne
    have hlt := findAt_lt h
    unfold KvLogStore.get_at_offset
    rw [if_neg (by omega), h]
    simp [hne]
  · intro hlt h
    unfold KvLogStore.get_at_offset
    rw [if_neg (by omega), h]
  · intro hge
    unfold KvLogStore.get_at_offset
    rw [if_pos hge]

/-- C7 counterexample: at the end-of-file offset 23 of the one-record store
exSt7 no record can be decoded, and the call panics instead of returning a
Corruption error. -/
theorem c7_counterexample :
    exSt7.get_at_offset ("a") 23 = KvResult.panicked ∧
    ∀ e : KvError, ¬(exSt7.get_at_offset ("a") 23 = KvResult.err e) := by
  refine ⟨by decide, ?_⟩
  intro e h
  have hp : exSt7.get_at_offset ("a") 23 = KvResult.panicked := by decide
  rw [hp] at h
  exact KvResult.noConfusion h

/-- Witness for C7: reading the record of exSt7 at its true offset 0
returns its value. -/
theorem c7_witness : exSt7.get_at_offset ("a") 0 = KvResult.ok ("x") := by
  exact (c7_read_at_amended exSt7 ("a") 0).1 ("x") (by decide)

/-- C9 amended: KvStore::set first runs the compaction gate on the
pre-append state (possibly compacting), and only then appends Set key value
to the (possibly compacted) log and points the index at the returned offset,
which is the byte length of the post-gate log. -/
theorem c9_set_order_amended (s : KvStore) (k v : String) (b : Bool)
    (m1 : List (String × Nat)) (l1 : KvLogStore)
    (hdo : s.kvlog.do_compaction s.kvmap = (KvResult.ok b, m1, l1)) :
    (s.set k v).1 = KvResult.ok () ∧
    (s.set k v).2.kvmap = mapInsert m1 k (logLen l1.log) ∧
    (s.set k v).2.kvlog.log = l1.log ++ [{ key := k, value := some v }] ∧
    (s.set k v).2.kvlog.num_entries = l1.num_entries + 1 := by
  rw [KvStore.set_ok_eq s k v b m1 l1 hdo]
  exact ⟨rfl, rfl, rfl, rfl⟩

/-- C9 counterexample: at the concrete store exS9 (one record below the
threshold), the code order (compaction gate before the append) and the
claimed order (append, index update, then compaction) produce different
stores: the code leaves two records, the claimed order compacts down to
one. -/
theorem c9_counterexample :
    (exS9.set ("a") ("y")).2.kvlog.log.length = 2 ∧
    (KvStore.setSpecOrdered exS9 ("a") ("y")).2.kvlog.log.length = 1 ∧
    ¬((exS9.set ("a") ("y")).2 = (KvStore.setSpecOrdered exS9 ("a") ("y")).2) := by
  decide

/-- Witness for C9: the amended statement evaluated on a fresh store. -/
theorem c9_witness :
    ((KvStore.openDir [] []).set ("a") ("x")).1 = KvResult.ok () ∧
    ((KvStore.openDir [] []).set ("a") ("x")).2.kvmap =
      mapInsert [] ("a") (logLen (KvLogStore.new [] []).log) ∧
    ((KvStore.openDir [] []).set ("a") ("x")).2.kvlog.log =
      (KvLogStore.new [] []).log ++ [{ key := ("a"), value := some ("x") }] ∧
    ((KvStore.openDir [] []).set ("a") ("x")).2.kvlog.num_entries =
      (KvLogStore.new [] []).num_entries + 1 := by
  exact c9_set_order_amended (KvStore.openDir [] []) ("a") ("x") false []
    (KvLogStore.new [] []) (by decide)

/-- C10: when do_compaction runs with a nonempty pre-existing temp file
kvls.compact.ser, open_file_handles opens it with create+append and does not
truncate, so after the rename the active log still holds the stale records
at its head, the number of freshly written records equals the index size,
and every new index offset lies at or after the end of the stale bytes. -/
theorem c10_stale_temp_preserved (st : KvLogStore) (map m' : List (String × Nat))
    (st2 : KvLogStore)
    (hne : ¬(st.compactFile = []))
    (hdo : st.do_compaction map = (KvResult.ok true, m', st2)) :
    ∃ recs, st2.log = st.compactFile ++ recs ∧ recs.length = map.length ∧
      ∀ k off, mapLookup m' k = some off → logLen st.compactFile ≤ off ∧
        ∃ v, findAt st2.log off = some { key := k, value := some v } := by
  cases hb : (compaction_analysis st map.length).1 with
  | false =>
    rw [do_compaction_analysis_false st map hb] at hdo
    injection hdo with h1 hrest
    injection h1 with h1
    exact Bool.noConfusion h1
  | true =>
    rcases hr : compactLoop st map st.compactFile with ⟨r1, r2, r3⟩
    cases r1 with
    | ok u =>
      cases u
      rw [do_compaction_ok_eq st map r2 r3 hb hr] at hdo
      injection hdo with h1 h23
      injection h23 with h2 h3
      obtain ⟨recs, hro, hrl, hrk⟩ := compactLoop_ok_shape st map st.compactFile () r2 r3 hr
      refine ⟨recs, ?_, hrl, ?_⟩
      · rw [← h3]
        exact hro
      · intro k off hk
        rw [← h2] at hk
        obtain ⟨hle, v, hfind⟩ := hrk k off hk
        refine ⟨hle, v, ?_⟩
        rw [← h3]
        exact hfind
    | err e =>
      rw [do_compaction_err_eq st map r2 r3 e hb hr] at hdo
      injection hdo with h1 hrest
      exact KvResult.noConfusion h1
    | panicked =>
      rw [do_compaction_panic_eq st map r2 r3 hb hr] at hdo
      injection hdo with h1 hrest
      exact KvResult.noConfusion h1

/-- Witness for C10: the stale-temp behavior evaluated at exSt10, whose temp
file holds one stale record of 23 bytes; the compacted record for a lands at
offset 23, after the stale bytes. -/
theorem c10_witness :
    ∃ recs, exSt10post.log = exSt10.compactFile ++ recs ∧
      recs.length = exMap3.length ∧
      ∀ k off, mapLookup exMap10post k = some off →
        logLen exSt10.compactFile ≤ off ∧
        ∃ v, findAt exSt10post.log off = some { key := k, value := some v } := by
  exact c10_stale_temp_preserved exSt10 exMap3 exMap10post exSt10post
    (by decide) (by decide)
